import Mathlib

/-!
Verification of the Tamil-OCR document pipeline (`src/main.py`).

The development shallowly embeds the algorithmic core of the application:

* `extract_text_lines` — `OCRTask.extract_text_lines` (identical to
  `OCRApp.extract_text_lines_from_data`): confidence-filtered line
  reconstruction from raw OCR word records;
* `runScheduler` — the completion accounting of `OCRManager`
  (`on_page_completed`, driven by the `page_processed` signal);
* `AppState` and its operations — the per-page caches and handlers of
  `OCRApp` (`on_page_processed`, `on_confidence_changed`,
  `update_current_page_highlights`, `reset_current_text`,
  `save_current_page_text`, `export_text`);
* `resize_page` — the oversized-page downscaling in
  `PDFConversionWorker.run`.

Python floats that carry OCR confidences are modelled as exact rationals
(`ℚ`); a confidence entry that fails to parse is `none` and defaults to
the sentinel `-1`, exactly as the `try/except` in the source does.
-/

namespace TamilOCR

/-- One raw OCR word record, as read out of the `pytesseract` data
dictionary: `data['text'][i]` (possibly `None`), `data['conf'][i]` after
the `float(...)` parse (`none` when parsing raises), and the
block/paragraph/line grouping numbers. -/
structure WordBox where
  text : Option String
  conf : Option ℚ
  block_num : Int
  par_num : Int
  line_num : Int
deriving DecidableEq, Repr

/-- `float(data['conf'][i])` with the `except` branch assigning `-1.0`. -/
def parsedConf (w : WordBox) : ℚ := w.conf.getD (-1)

/-- The whitespace characters removed by Python's `str.strip()`. -/
def pySpace (c : Char) : Bool :=
  c == ' ' || c == '\t' || c == '\n' || c == '\r' || c == '\x0b' || c == '\x0c'

/-- Python's `str.strip()`: drop leading and trailing whitespace. -/
def pyStrip (s : String) : String :=
  ⟨((s.data.dropWhile pySpace).reverse.dropWhile pySpace).reverse⟩

/-- `(data['text'][i] or '').strip()`. -/
def trimmedWord (w : WordBox) : String := pyStrip (w.text.getD "")

/-- The `(block_num, par_num, line_num)` grouping triple of a word. -/
def keyOf (w : WordBox) : Int × Int × Int := (w.block_num, w.par_num, w.line_num)

/-- The filter `conf > confidence_threshold and word` from the source:
strictly-above-threshold confidence and non-empty trimmed text. -/
def kept (t : Int) (w : WordBox) : Bool :=
  decide ((t : ℚ) < parsedConf w) && !(trimmedWord w == "")

/-- Loop state of `extract_text_lines`: the accumulated output lines,
the open current line, and the grouping triple of the last kept word
(initialised to `(-1, -1, -1)`). -/
structure LineState where
  text_lines : List String
  current_line : List String
  last : Int × Int × Int

/-- One iteration of the `for i in range(n_boxes)` loop of
`OCRTask.extract_text_lines`. -/
def lineStep (t : Int) (s : LineState) (w : WordBox) : LineState :=
  if kept t w then
    let s' :=
      if keyOf w = s.last then s
      else
        { text_lines :=
            s.text_lines ++
              (if s.current_line = [] then [] else [String.intercalate " " s.current_line]),
          current_line := [],
          last := keyOf w }
    { s' with current_line := s'.current_line ++ [trimmedWord w] }
  else s

/-- The flush after the loop: `if current_line: text_lines.append(' '.join(current_line))`. -/
def flushLines (s : LineState) : List String :=
  s.text_lines ++
    (if s.current_line = [] then [] else [String.intercalate " " s.current_line])

/-- `OCRTask.extract_text_lines(data, confidence_threshold)` (and the
textually identical `OCRApp.extract_text_lines_from_data`): iterate the
word records in engine order and group kept words into lines. -/
def extract_text_lines (words : List WordBox) (t : Int) : List String :=
  flushLines (words.foldl (lineStep t) ⟨[], [], (-1, -1, -1)⟩)

example :
    extract_text_lines
      [⟨some "Hello", some 90, 1, 1, 1⟩, ⟨some "World", some 90, 1, 1, 1⟩,
        ⟨some "Next", some 90, 1, 1, 2⟩] 50 = ["Hello World", "Next"] := by decide

example : extract_text_lines [⟨some "low", some 30, 1, 1, 1⟩] 50 = [] := by decide

/-!
## Specification-side reconstruction

§4.2 of the spec describes `reconstruct` as: discard words with
`confidence <= threshold` or empty trimmed text, then start a new line
exactly when the `(block_num, par_num, line_num)` triple differs from the
previous kept word's triple, joining each line's words with single
spaces. That is: filter, chunk the survivors into maximal runs of equal
triples, and join each chunk.
-/

/-- Chunk a word list into maximal runs of adjacent words with equal
grouping triples. -/
def chunkBy : List WordBox → List (List WordBox)
  | [] => []
  | [w] => [[w]]
  | w :: w' :: ws =>
    if keyOf w = keyOf w' then
      match chunkBy (w' :: ws) with
      | [] => [[w]]
      | g :: gs => (w :: g) :: gs
    else
      [w] :: chunkBy (w' :: ws)

/-- Join one chunk of words into a line with single spaces. -/
def joinChunk (g : List WordBox) : String :=
  String.intercalate " " (g.map trimmedWord)

/-- Render a chunking as output lines. -/
def linesOf (gs : List (List WordBox)) : List String := gs.map joinChunk

/-- `reconstruct` as the spec words it: keep the words strictly above the
threshold with non-empty trimmed text, cut lines exactly at changes of
the grouping triple, join with single spaces. -/
def reconstructSpec (words : List WordBox) (t : Int) : List String :=
  linesOf (chunkBy (words.filter (kept t)))

/-- The open line carried through the loop, flushed only if non-empty. -/
def openLine (cur : List String) : List String :=
  if cur = [] then [] else [String.intercalate " " cur]

/-- Continuation semantics of the reconstruction loop restricted to kept
words: from an open line `cur` whose last kept word had triple `k`,
process the remaining kept words. -/
def contLinesK (cur : List String) (k : Int × Int × Int) : List WordBox → List String
  | [] => openLine cur
  | w :: ws =>
    if keyOf w = k then contLinesK (cur ++ [trimmedWord w]) k ws
    else openLine cur ++ contLinesK [trimmedWord w] (keyOf w) ws

/-- Continuation semantics of the reconstruction loop on raw words:
words failing the filter are skipped. -/
def contLines (t : Int) (cur : List String) (k : Int × Int × Int) :
    List WordBox → List String
  | [] => openLine cur
  | w :: ws =>
    if kept t w then
      if keyOf w = k then contLines t (cur ++ [trimmedWord w]) k ws
      else openLine cur ++ contLines t [trimmedWord w] (keyOf w) ws
    else contLines t cur k ws

theorem foldl_lineStep_contLines (t : Int) (ws : List WordBox) :
    ∀ (acc cur : List String) (k : Int × Int × Int),
      flushLines (ws.foldl (lineStep t) ⟨acc, cur, k⟩) = acc ++ contLines t cur k ws := by
  induction ws with
  | nil =>
    intro acc cur k
    simp only [List.foldl_nil, flushLines, contLines, openLine]
  | cons w ws ih =>
    intro acc cur k
    by_cases hk : kept t w
    · by_cases hkey : keyOf w = k
      · simp only [List.foldl_cons, lineStep, hk, if_true, hkey, if_pos, contLines]
        exact ih acc (cur ++ [trimmedWord w]) k
      · simp only [List.foldl_cons, lineStep, hk, if_true, contLines]
        rw [if_neg hkey, if_neg hkey]
        have h2 := ih (acc ++ (if cur = [] then [] else [String.intercalate " " cur]))
          ([trimmedWord w]) (keyOf w)
        simp only [List.nil_append]
        rw [h2, List.append_assoc]
        rfl
    · simp only [List.foldl_cons, lineStep, hk, if_false, contLines, Bool.false_eq_true]
      exact ih acc cur k

theorem contLines_filter (t : Int) (ws : List WordBox) :
    ∀ (cur : List String) (k : Int × Int × Int),
      contLines t cur k ws = contLinesK cur k (ws.filter (kept t)) := by
  induction ws with
  | nil => intro cur k; rfl
  | cons w ws ih =>
    intro cur k
    by_cases hk : kept t w
    · simp only [contLines, hk, if_true, List.filter_cons_of_pos hk, contLinesK]
      by_cases hkey : keyOf w = k
      · rw [if_pos hkey, if_pos hkey, ih]
      · rw [if_neg hkey, if_neg hkey, ih]
    · simp only [contLines, hk, if_false, Bool.false_eq_true,
        List.filter_cons_of_neg (by simpa using hk)]
      exact ih cur k

theorem contLinesK_cons (cur : List String) (k : Int × Int × Int) (w : WordBox)
    (ws : List WordBox) :
    contLinesK cur k (w :: ws) =
      if keyOf w = k then contLinesK (cur ++ [trimmedWord w]) k ws
      else openLine cur ++ contLinesK [trimmedWord w] (keyOf w) ws := rfl

theorem chunkBy_pair (w w' : WordBox) (ws : List WordBox) :
    chunkBy (w :: w' :: ws) =
      if keyOf w = keyOf w' then
        match chunkBy (w' :: ws) with
        | [] => [[w]]
        | g :: gs => (w :: g) :: gs
      else [w] :: chunkBy (w' :: ws) := rfl

theorem chunkBy_cons (w : WordBox) (l : List WordBox) :
    ∃ g gs, chunkBy (w :: l) = (w :: g) :: gs := by
  induction l generalizing w with
  | nil => exact ⟨[], [], rfl⟩
  | cons w' ws ih =>
    obtain ⟨g', gs', h'⟩ := ih w'
    by_cases hkey : keyOf w = keyOf w'
    · refine ⟨w' :: g', gs', ?_⟩
      rw [chunkBy_pair, if_pos hkey, h']
    · refine ⟨[], chunkBy (w' :: ws), ?_⟩
      rw [chunkBy_pair, if_neg hkey]

theorem chunkBy_flatten (l : List WordBox) : (chunkBy l).flatten = l := by
  induction l with
  | nil => rfl
  | cons w ws ih =>
    cases ws with
    | nil => rfl
    | cons w' ws' =>
      obtain ⟨g', gs', h'⟩ := chunkBy_cons w' ws'
      by_cases hkey : keyOf w = keyOf w'
      · rw [chunkBy_pair, if_pos hkey, h']
        have h2 : ((w' :: g') :: gs').flatten = w' :: ws' := by rw [← h']; exact ih
        simpa using h2
      · rw [chunkBy_pair, if_neg hkey, List.flatten_cons, List.singleton_append, ih]

theorem chunkBy_mem_ne_nil (l : List WordBox) :
    ∀ g ∈ chunkBy l, g ≠ [] := by
  induction l with
  | nil => intro g hg; simp [chunkBy] at hg
  | cons w ws ih =>
    cases ws with
    | nil =>
      intro g hg
      simp only [chunkBy, List.mem_singleton] at hg
      simp [hg]
    | cons w' ws' =>
      obtain ⟨g', gs', h'⟩ := chunkBy_cons w' ws'
      intro g hg
      by_cases hkey : keyOf w = keyOf w'
      · rw [chunkBy_pair, if_pos hkey, h'] at hg
        simp only [List.mem_cons] at hg
        rcases hg with hg | hg
        · simp [hg]
        · exact ih g (by rw [h']; exact List.mem_cons_of_mem _ hg)
      · rw [chunkBy_pair, if_neg hkey] at hg
        simp only [List.mem_cons] at hg
        rcases hg with hg | hg
        · simp [hg]
        · exact ih g hg

/-- How an open line `cur` with last key `k` merges with an already
chunked remainder: if the first chunk continues the key `k`, it extends
the open line; otherwise the open line closes first. -/
def withOpen (cur : List String) (k : Int × Int × Int) :
    List (List WordBox) → List String
  | [] => [String.intercalate " " cur]
  | g :: gs =>
    if g.head?.map keyOf = some k then
      String.intercalate " " (cur ++ g.map trimmedWord) :: gs.map joinChunk
    else
      String.intercalate " " cur :: (g :: gs).map joinChunk

theorem chunkBy_pair_pos {w w' : WordBox} {ws : List WordBox} {g : List WordBox}
    {gs : List (List WordBox)} (h : chunkBy (w' :: ws) = (w' :: g) :: gs)
    (hkey : keyOf w = keyOf w') :
    chunkBy (w :: w' :: ws) = (w :: w' :: g) :: gs := by
  rw [chunkBy_pair, if_pos hkey, h]

theorem chunkBy_pair_neg {w w' : WordBox} {ws : List WordBox}
    (hkey : ¬keyOf w = keyOf w') :
    chunkBy (w :: w' :: ws) = [w] :: chunkBy (w' :: ws) := by
  rw [chunkBy_pair, if_neg hkey]

theorem headKey_cons (w : WordBox) (ws : List WordBox) :
    (w :: ws).head?.map keyOf = some (keyOf w) := rfl

theorem contLinesK_withOpen (l : List WordBox) :
    ∀ (cur : List String) (k : Int × Int × Int), cur ≠ [] →
      contLinesK cur k l = withOpen cur k (chunkBy l) := by
  induction l with
  | nil =>
    intro cur k hcur
    simp only [contLinesK, chunkBy, withOpen, openLine, if_neg hcur]
  | cons w ws ih =>
    intro cur k hcur
    cases ws with
    | nil =>
      rw [contLinesK_cons]
      by_cases hkey : keyOf w = k
      · rw [if_pos hkey, show chunkBy [w] = [[w]] from rfl, withOpen,
          if_pos (by rw [headKey_cons, hkey])]
        have hne : cur ++ [trimmedWord w] ≠ [] := by simp
        simp [contLinesK, openLine, hne]
      · rw [if_neg hkey, show chunkBy [w] = [[w]] from rfl, withOpen,
          if_neg (by rw [headKey_cons]
                     exact fun h => hkey (Option.some_injective _ h))]
        simp [contLinesK, openLine, hcur, joinChunk]
    | cons w' ws' =>
      obtain ⟨g', gs', h'⟩ := chunkBy_cons w' ws'
      rw [contLinesK_cons]
      by_cases hkey : keyOf w = k
      · -- w continues the open line
        rw [if_pos hkey, ih (cur ++ [trimmedWord w]) k (by simp), h']
        by_cases hkey2 : keyOf w = keyOf w'
        · have hw' : keyOf w' = k := hkey2 ▸ hkey
          rw [chunkBy_pair_pos h' hkey2, withOpen, withOpen,
            if_pos (by rw [headKey_cons, hw']), if_pos (by rw [headKey_cons, hkey])]
          simp [List.append_assoc]
        · rw [chunkBy_pair_neg hkey2, h', withOpen, withOpen,
            if_neg (by rw [headKey_cons]
                       exact fun h =>
                         hkey2 (hkey.trans (Option.some_injective _ h).symm)),
            if_pos (by rw [headKey_cons, hkey])]
          simp [joinChunk]
      · -- w closes the open line
        rw [if_neg hkey, ih [trimmedWord w] (keyOf w) (by simp), h']
        by_cases hkey2 : keyOf w = keyOf w'
        · rw [chunkBy_pair_pos h' hkey2, withOpen, withOpen,
            if_pos (by rw [headKey_cons, hkey2.symm]),
            if_neg (by rw [headKey_cons]
                       exact fun h => hkey (Option.some_injective _ h))]
          simp only [openLine, if_neg hcur]
          simp [joinChunk]
        · rw [chunkBy_pair_neg hkey2, h', withOpen, withOpen,
            if_neg (by rw [headKey_cons]
                       exact fun h => hkey2 (Option.some_injective _ h).symm),
            if_neg (by rw [headKey_cons]
                       exact fun h => hkey (Option.some_injective _ h))]
          simp only [openLine, if_neg hcur]
          simp [joinChunk]

theorem contLinesK_nil_chunk (k : Int × Int × Int) (l : List WordBox) :
    contLinesK [] k l = linesOf (chunkBy l) := by
  cases l with
  | nil => rfl
  | cons w ws =>
    have hstep : contLinesK [] k (w :: ws) = contLinesK [trimmedWord w] (keyOf w) ws := by
      rw [contLinesK_cons]
      by_cases hkey : keyOf w = k
      · rw [if_pos hkey, List.nil_append, hkey]
      · rw [if_neg hkey, openLine, if_pos rfl, List.nil_append]
    rw [hstep, contLinesK_withOpen ws [trimmedWord w] (keyOf w) (by simp)]
    cases ws with
    | nil => simp [chunkBy, withOpen, linesOf, joinChunk]
    | cons w' ws' =>
      obtain ⟨g', gs', h'⟩ := chunkBy_cons w' ws'
      by_cases hkey2 : keyOf w = keyOf w'
      · rw [chunkBy_pair_pos h' hkey2, h', withOpen,
          if_pos (by rw [headKey_cons, hkey2.symm])]
        simp [linesOf, joinChunk]
      · rw [chunkBy_pair_neg hkey2, h', withOpen,
          if_neg (by rw [headKey_cons]
                     exact fun h => hkey2 (Option.some_injective _ h).symm)]
        simp [linesOf, joinChunk]

/-- The loop in the source computes exactly the spec-side
filter/chunk/join reconstruction. -/
theorem extract_eq_reconstructSpec (ws : List WordBox) (t : Int) :
    extract_text_lines ws t = reconstructSpec ws t := by
  rw [extract_text_lines, foldl_lineStep_contLines, contLines_filter,
    contLinesK_nil_chunk, reconstructSpec, List.nil_append]


/-!
## Joining algebra for `String.intercalate`

Needed to relate the full text content of the reconstruction to the
sequence of kept words (claim on threshold monotonicity).
-/

theorem intercalate_go_shift (s : String) (l : List String) :
    ∀ (a b : String), String.intercalate.go (a ++ b) s l =
      a ++ String.intercalate.go b s l := by
  induction l with
  | nil => intro a b; rfl
  | cons x xs ih =>
    intro a b
    show String.intercalate.go (a ++ b ++ s ++ x) s xs =
      a ++ String.intercalate.go (b ++ s ++ x) s xs
    have h : a ++ b ++ s ++ x = a ++ (b ++ s ++ x) := by
      simp [String.append_assoc]
    rw [h, ih]

theorem intercalate_cons_cons (s a b : String) (l : List String) :
    String.intercalate s (a :: b :: l) =
      a ++ s ++ String.intercalate s (b :: l) := by
  show String.intercalate.go a s (b :: l) = a ++ s ++ String.intercalate.go b s l
  show String.intercalate.go (a ++ s ++ b) s l = a ++ s ++ String.intercalate.go b s l
  rw [intercalate_go_shift]

theorem intercalate_append_ne (s : String) (a b : List String)
    (ha : a ≠ []) (hb : b ≠ []) :
    String.intercalate s (a ++ b) =
      String.intercalate s a ++ s ++ String.intercalate s b := by
  induction a with
  | nil => exact absurd rfl ha
  | cons x xs ih =>
    cases xs with
    | nil =>
      cases b with
      | nil => exact absurd rfl hb
      | cons y ys =>
        show String.intercalate s (x :: y :: ys) = _
        rw [intercalate_cons_cons]
        rfl
    | cons x' xs' =>
      rw [List.cons_append, List.cons_append, intercalate_cons_cons,
        ← List.cons_append, ih (by simp), intercalate_cons_cons]
      simp [String.append_assoc]

theorem intercalate_linesOf (gs : List (List WordBox)) :
    (∀ g ∈ gs, g ≠ []) →
      String.intercalate " " (linesOf gs) =
        String.intercalate " " (gs.flatten.map trimmedWord) := by
  induction gs with
  | nil => intro _; rfl
  | cons g gs ih =>
    intro hne
    cases gs with
    | nil =>
      simp only [linesOf, List.map_cons, List.map_nil, joinChunk,
        List.flatten_cons, List.flatten_nil, List.append_nil]
      rfl
    | cons g' gs' =>
      have hgne : g ≠ [] := hne g (List.mem_cons_self ..)
      have hg'ne : g' ≠ [] := hne g' (List.mem_cons_of_mem _ (List.mem_cons_self ..))
      have hflne : ((g' :: gs').flatten.map trimmedWord) ≠ [] := by
        cases g' with
        | nil => exact absurd rfl hg'ne
        | cons a as => simp
      have hlne : linesOf (g' :: gs') ≠ [] := by simp [linesOf]
      rw [show linesOf (g :: g' :: gs') = [joinChunk g] ++ linesOf (g' :: gs') from rfl,
        intercalate_append_ne _ _ _ (by simp) hlne,
        ih (fun x hx => hne x (List.mem_cons_of_mem _ hx)),
        show ((g :: g' :: gs').flatten.map trimmedWord) =
          g.map trimmedWord ++ ((g' :: gs').flatten.map trimmedWord) by simp,
        intercalate_append_ne " " (g.map trimmedWord)
          ((g' :: gs').flatten.map trimmedWord) (by simpa using hgne) hflne]
      rfl

/-- Joining all output lines of the reconstruction with single spaces
gives exactly the space-joined sequence of kept trimmed words. -/
theorem intercalate_extract (ws : List WordBox) (t : Int) :
    String.intercalate " " (extract_text_lines ws t) =
      String.intercalate " " ((ws.filter (kept t)).map trimmedWord) := by
  rw [extract_eq_reconstructSpec, reconstructSpec,
    intercalate_linesOf _ (chunkBy_mem_ne_nil _), chunkBy_flatten]

/-- Raising the threshold only removes words from the kept filter. -/
theorem kept_filter_mono (ws : List WordBox) {t1 t2 : Int} (h : t1 ≤ t2) :
    List.Sublist (ws.filter (kept t2)) (ws.filter (kept t1)) := by
  have himp : ∀ w, kept t2 w → kept t1 w := by
    intro w hw
    simp only [kept, Bool.and_eq_true, decide_eq_true_eq] at hw ⊢
    refine ⟨lt_of_le_of_lt ?_ hw.1, hw.2⟩
    exact_mod_cast h
  have heq : ws.filter (kept t2) = (ws.filter (kept t1)).filter (kept t2) := by
    rw [List.filter_filter]
    exact (List.filter_congr fun w _ => by
      by_cases h2 : kept t2 w
      · simp [h2, himp w h2]
      · simp [h2]).symm
  rw [heq]
  exact List.filter_sublist _


/-!
## The OCR scheduler (`OCRManager`)

`start_processing` sets `total_pages` and `completed_pages := 0` and
connects `on_page_completed` to the `page_processed` signal only.  A
task that succeeds emits `page_processed(index, text, data)`; a task
whose recognition call fails emits `error_occurred(message)` and
returns without emitting `page_processed` (`OCRTask.run`).
`on_page_completed` increments `completed_pages` and emits
`processing_complete` when `completed_pages >= total_pages`.
-/

/-- Terminal outcome of one page's `OCRTask.run`: a `page_processed`
emission, or an `error_occurred` emission with no page result. -/
inductive PageOutcome where
  | success (text : String) (data : List WordBox)
  | failure (message : String)
deriving DecidableEq, Repr

/-- Whether the outcome is a successful `page_processed` emission. -/
def isSuccess : PageOutcome → Bool
  | .success _ _ => true
  | .failure _ => false

/-- Number of successful page results in a run. -/
def countSuccess (outcomes : List PageOutcome) : Nat :=
  outcomes.countP isSuccess

/-- Counter state of `OCRManager`. -/
structure ManagerState where
  total_pages : Nat
  completed_pages : Nat
deriving DecidableEq, Repr

/-- Deliver one page outcome to the manager: `page_processed` invokes
`on_page_completed` (increment, and emit `processing_complete` when the
counter reaches `total_pages`); `error_occurred` is routed elsewhere and
does not touch the counter.  The second component counts
`processing_complete` emissions. -/
def deliverOutcome (s : ManagerState × Nat) (o : PageOutcome) : ManagerState × Nat :=
  match o with
  | .success _ _ =>
    let c := s.1.completed_pages + 1
    (⟨s.1.total_pages, c⟩, s.2 + if s.1.total_pages ≤ c then 1 else 0)
  | .failure _ => s

/-- One full run of `start_processing` over a document whose pages end
in the given outcomes (in completion order): `total_pages` is the number
of submitted tasks, `completed_pages` starts at 0, and every outcome is
delivered.  Returns the final counter state and the number of
`processing_complete` emissions. -/
def runScheduler (outcomes : List PageOutcome) : ManagerState × Nat :=
  outcomes.foldl deliverOutcome (⟨outcomes.length, 0⟩, 0)

theorem deliverOutcome_run (outcomes : List PageOutcome) :
    ∀ (total c k : Nat), c + countSuccess outcomes ≤ total →
      outcomes.foldl deliverOutcome (⟨total, c⟩, k) =
        (⟨total, c + countSuccess outcomes⟩,
          k + if 0 < countSuccess outcomes ∧ c + countSuccess outcomes = total
              then 1 else 0) := by
  induction outcomes with
  | nil =>
    intro total c k h
    simp [countSuccess]
  | cons o os ih =>
    intro total c k h
    cases o with
    | failure m =>
      have hcs : countSuccess (.failure m :: os) = countSuccess os := by
        simp [countSuccess, isSuccess]
      rw [List.foldl_cons]
      show os.foldl deliverOutcome (⟨total, c⟩, k) = _
      rw [ih total c k (by rw [hcs] at h; exact h), hcs]
    | success txt data =>
      have hcs : countSuccess (.success txt data :: os) = countSuccess os + 1 := by
        simp [countSuccess, isSuccess]
      rw [hcs] at h ⊢
      rw [List.foldl_cons]
      show os.foldl deliverOutcome
        (⟨total, c + 1⟩, k + if total ≤ c + 1 then 1 else 0) = _
      rw [ih total (c + 1) _ (by omega)]
      by_cases hdone : total ≤ c + 1
      · have hcs0 : countSuccess os = 0 := by omega
        rw [if_pos hdone, hcs0]
        have : c + 1 = total := by omega
        simp [this]
      · rw [if_neg hdone]
        have h1 : (0 < countSuccess os ∧ c + 1 + countSuccess os = total) ↔
            (0 < countSuccess os + 1 ∧ c + (countSuccess os + 1) = total) := by
          constructor
          · rintro ⟨h2, h3⟩; omega
          · rintro ⟨h2, h3⟩
            refine ⟨?_, by omega⟩
            omega
        by_cases h2 : 0 < countSuccess os ∧ c + 1 + countSuccess os = total
        · rw [if_pos h2, if_pos (h1.mp h2)]
          simp [Nat.add_assoc, Nat.add_comm 1 (countSuccess os)]
        · rw [if_neg h2, if_neg (fun hh => h2 (h1.mpr hh))]
          simp [Nat.add_assoc, Nat.add_comm 1 (countSuccess os)]


/-!
## The application state (`OCRApp`)

The per-page caches and the handlers that mutate them.  Pages are
identified by index; `temp_pages` is the number of loaded pages.  The
Qt text editor holds the visible text of the current page
(`editor_text`); `setPlainText` fires `textChanged` (and hence
`on_text_edited`) unless the handler temporarily disconnects it, and
the source disconnects exactly in `update_current_page_highlights`,
`reset_current_text` and the cached branch of
`display_current_page_with_cache`.
-/

/-- The mutable state of `OCRApp` relevant to per-page text handling. -/
structure AppState where
  temp_pages : Nat
  current_page_index : Nat
  ocr_data_cache : Nat → Option (List WordBox)
  text_cache : Nat → Option String
  text_modified : Nat → Option Bool
  confidence_threshold : Int
  editor_text : String

/-- Point update of a dictionary keyed by page index. -/
def upd {α : Type} (f : Nat → Option α) (i : Nat) (v : α) : Nat → Option α :=
  fun j => if j = i then some v else f j

/-- `index in text_modified and text_modified[index]`. -/
def modifiedAt (s : AppState) (i : Nat) : Bool := (s.text_modified i).getD false

/-- Fresh state right after a document with `n` pages is loaded
(`process_file` clears all caches and resets the page index; the
confidence spinbox keeps the user's threshold). -/
def loadedState (n : Nat) (t : Int) : AppState :=
  { temp_pages := n
    current_page_index := 0
    ocr_data_cache := fun _ => none
    text_cache := fun _ => none
    text_modified := fun _ => none
    confidence_threshold := t
    editor_text := "" }

/-- `on_text_edited`: fired by `textChanged`; marks the current page as
modified when a document is loaded. -/
def on_text_edited (s : AppState) : AppState :=
  if s.temp_pages ≠ 0 then
    { s with text_modified := upd s.text_modified s.current_page_index true }
  else s

/-- The user typing replacement text into the editor for the current
page: the editor content changes and `textChanged` fires. -/
def edit_text (s : AppState) (txt : String) : AppState :=
  on_text_edited { s with editor_text := txt }

/-- `update_current_page_highlights`: bail out when no document or the
index is out of range; re-add highlights (not modelled — pure scene
decoration); and, only when the current page has not been manually
edited and its raw OCR data is cached, recompute the visible text with
the current threshold (editor signal disconnected) and refresh the text
cache. -/
def update_current_page_highlights (s : AppState) : AppState :=
  if s.temp_pages = 0 ∨ s.temp_pages ≤ s.current_page_index then s
  else if modifiedAt s s.current_page_index then s
  else
    match s.ocr_data_cache s.current_page_index with
    | none => s
    | some data =>
      let text := String.intercalate "\n" (extract_text_lines data s.confidence_threshold)
      { s with
        editor_text := text
        text_cache := upd s.text_cache s.current_page_index text }

/-- `on_confidence_changed(value)`: store the new threshold; if the
current page has cached OCR data, refresh the display immediately. -/
def on_confidence_changed (s : AppState) (value : Int) : AppState :=
  let s' := { s with confidence_threshold := value }
  if (s'.ocr_data_cache s'.current_page_index).isSome then
    update_current_page_highlights s'
  else s'

/-- `display_current_page_with_cache`: show the current page.  With a
cached text the editor is set with the signal disconnected; without one
the placeholder is written with the signal still connected, so
`textChanged` fires `on_text_edited`. -/
def display_current_page_with_cache (s : AppState) : AppState :=
  if s.temp_pages = 0 ∨ s.temp_pages ≤ s.current_page_index then s
  else
    match s.text_cache s.current_page_index with
    | some t => { s with editor_text := t }
    | none => on_text_edited { s with editor_text := "Processing OCR..." }

/-- `on_page_processed(page_index, text, ocr_data)`: unconditionally
cache the scheduler result, then refresh the display when the result is
for the current page. -/
def on_page_processed (s : AppState) (page_index : Nat) (text : String)
    (data : List WordBox) : AppState :=
  let s' := { s with
    ocr_data_cache := upd s.ocr_data_cache page_index data
    text_cache := upd s.text_cache page_index text }
  if page_index = s'.current_page_index then display_current_page_with_cache s' else s'

/-- `reset_current_text`: when the current page has a cached text,
restore the editor to it (signal disconnected) and clear the modified
flag. -/
def reset_current_text (s : AppState) : AppState :=
  match s.text_cache s.current_page_index with
  | some t =>
    { s with
      editor_text := t
      text_modified := upd s.text_modified s.current_page_index false }
  | none => s

/-- `save_current_page_text`: copy the editor content of the current
page into the text cache. -/
def save_current_page_text (s : AppState) : AppState :=
  if s.temp_pages ≠ 0 then
    { s with text_cache := upd s.text_cache s.current_page_index s.editor_text }
  else s

/-- `export_text`: save the current page's edits, then join the page
blocks `"=== Page {i+1} ===\n{page_text}\n"` with newlines. -/
def export_text (s : AppState) : String :=
  let s' := save_current_page_text s
  String.intercalate "\n"
    ((List.range s'.temp_pages).map fun i =>
      "=== Page " ++ toString (i + 1) ++ " ===\n" ++ ((s'.text_cache i).getD "") ++ "\n")

/-- The text of record the application holds for page `i`: the editor
content for the page on display, the cached text otherwise. -/
def textOf (s : AppState) (i : Nat) : Option String :=
  if i = s.current_page_index then some s.editor_text else s.text_cache i

/-!
## Oversized-page downscaling (`PDFConversionWorker.run`)
-/

/-- The `max_dimension = 4000` clamp: when either dimension exceeds the
maximum, scale so the longer side becomes 4000 and the other side is the
proportional value truncated to an integer (`int(...)` on a nonnegative
value is the floor, which integer division computes exactly). -/
def resize_page (w h : Nat) : Nat × Nat :=
  if 4000 < w ∨ 4000 < h then
    if h < w then (4000, h * 4000 / w)
    else (w * 4000 / h, 4000)
  else (w, h)

example : resize_page 8000 6000 = (4000, 3000) := by decide
example : resize_page 3000 2000 = (3000, 2000) := by decide


/-!
## Export format
-/

/-- The export format as the spec words it: for each page, 1-based, the
marker line, the page's text of record, and a blank line separating it
from the next page block. -/
def exportSpec : Nat → List String → String
  | _, [] => ""
  | i, [txt] => "=== Page " ++ toString i ++ " ===\n" ++ txt ++ "\n"
  | i, txt :: txt' :: rest =>
    "=== Page " ++ toString i ++ " ===\n" ++ txt ++ "\n\n" ++
      exportSpec (i + 1) (txt' :: rest)

/-- An application state holding the given texts of record, the first
page on display with its text in the editor. -/
def stateWithTexts (texts : List String) : AppState :=
  { temp_pages := texts.length
    current_page_index := 0
    ocr_data_cache := fun _ => none
    text_cache := fun i => texts[i]?
    text_modified := fun _ => none
    confidence_threshold := 0
    editor_text := texts.headD "" }

theorem export_blocks (texts : List String) :
    ∀ off : Nat,
      String.intercalate "\n"
        ((List.range texts.length).map fun j =>
          "=== Page " ++ toString (off + j + 1) ++ " ===\n" ++ (texts[j]?).getD "" ++ "\n") =
      exportSpec (off + 1) texts := by
  induction texts with
  | nil => intro off; rfl
  | cons t rest ih =>
    intro off
    rw [List.length_cons, List.range_succ_eq_map, List.map_cons, List.map_map]
    have hmap :
        (List.range rest.length).map
            ((fun j =>
              "=== Page " ++ toString (off + j + 1) ++ " ===\n" ++
                ((t :: rest)[j]?).getD "" ++ "\n") ∘ Nat.succ) =
          (List.range rest.length).map fun j =>
            "=== Page " ++ toString (off + 1 + j + 1) ++ " ===\n" ++
              (rest[j]?).getD "" ++ "\n" := by
      refine List.map_congr_left fun j hj => ?_
      have harith : off + (j + 1) + 1 = off + 1 + j + 1 := by omega
      simp only [Function.comp_apply, Nat.succ_eq_add_one, harith,
        List.getElem?_cons_succ]
    rw [hmap]
    cases rest with
    | nil =>
      simp only [List.length_nil, List.range_zero, List.map_nil]
      show String.intercalate "\n" ["=== Page " ++ toString (off + 0 + 1) ++ " ===\n" ++
        (some t).getD "" ++ "\n"] = _
      simp only [Nat.add_zero, Option.getD_some]
      rfl
    | cons t' rest' =>
      have hne : (List.range (t' :: rest').length).map (fun j =>
          "=== Page " ++ toString (off + 1 + j + 1) ++ " ===\n" ++
            ((t' :: rest')[j]?).getD "" ++ "\n") ≠ [] := by
        simp [List.range_succ_eq_map]
      obtain ⟨b, bs, hbs⟩ := List.exists_cons_of_ne_nil hne
      rw [hbs, intercalate_cons_cons, ← hbs, ih (off + 1)]
      show "=== Page " ++ toString (off + 0 + 1) ++ " ===\n" ++ (some t).getD "" ++ "\n"
          ++ "\n" ++ exportSpec (off + 1 + 1) (t' :: rest') = _
      simp only [Nat.add_zero, Option.getD_some, exportSpec]
      have hnl : ("\n" : String) ++ "\n" = "\n\n" := rfl
      rw [String.append_assoc _ "\n" "\n", hnl]

theorem export_stateWithTexts (texts : List String) :
    export_text (stateWithTexts texts) = exportSpec 1 texts := by
  have hsave :
      (save_current_page_text (stateWithTexts texts)).text_cache = fun i => texts[i]? := by
    cases texts with
    | nil => rfl
    | cons t rest =>
      funext i
      show upd (fun i => (t :: rest)[i]?) 0 ((t :: rest).headD "") i = (t :: rest)[i]?
      by_cases hi : i = 0
      · subst hi; simp [upd]
      · simp [upd, hi]
  have hlen :
      (save_current_page_text (stateWithTexts texts)).temp_pages = texts.length := by
    cases texts with
    | nil => rfl
    | cons t rest => rfl
  rw [export_text]
  show String.intercalate "\n" _ = _
  rw [hlen]
  have hbody :
      ((List.range texts.length).map fun i =>
        "=== Page " ++ toString (i + 1) ++ " ===\n" ++
          (((save_current_page_text (stateWithTexts texts)).text_cache i).getD "") ++ "\n") =
      ((List.range texts.length).map fun i =>
        "=== Page " ++ toString (0 + i + 1) ++ " ===\n" ++ (texts[i]?).getD "" ++ "\n") := by
    refine List.map_congr_left fun i hi => ?_
    rw [hsave]
    simp only [Nat.zero_add]
  rw [hbody, export_blocks texts 0]

example : export_text (stateWithTexts ["A", "B"]) =
    "=== Page 1 ===\nA\n\n=== Page 2 ===\nB\n" := by decide


/-!
## Claims
-/

/-- Claim C5: `reconstruct` iterates words in engine order, keeps exactly
the words with confidence strictly above the threshold and non-empty
trimmed text, and starts a new output line exactly when the
`(block_num, par_num, line_num)` triple differs from that of the previous
kept word, joining each line's kept words with single spaces (formally:
the source loop equals the filter/chunk-by-triple/join reconstruction);
the given three-word example at threshold 50 yields
`["Hello World", "Next"]`; and when no words are kept the result is the
empty sequence, not a sequence holding one empty string. -/
theorem C5_reconstruct_line_grouping :
    (∀ (ws : List WordBox) (t : Int), extract_text_lines ws t = reconstructSpec ws t) ∧
    extract_text_lines
      [⟨some "Hello", some 90, 1, 1, 1⟩, ⟨some "World", some 90, 1, 1, 1⟩,
        ⟨some "Next", some 90, 1, 1, 2⟩] 50 = ["Hello World", "Next"] ∧
    (∀ (ws : List WordBox) (t : Int), (∀ w ∈ ws, kept t w = false) →
      extract_text_lines ws t = []) := by
  refine ⟨extract_eq_reconstructSpec, by decide, fun ws t h => ?_⟩
  rw [extract_eq_reconstructSpec, reconstructSpec, List.filter_eq_nil_iff.mpr
    (fun w hw => by simp [h w hw])]
  rfl

/-- Closed witness for C5: the no-kept-words branch evaluated on a
concrete input. -/
theorem C5_witness :
    (∀ w ∈ [(⟨some "low", some 30, 1, 1, 1⟩ : WordBox)], kept 50 w = false) ∧
    extract_text_lines [(⟨some "low", some 30, 1, 1, 1⟩ : WordBox)] 50 = [] :=
  ⟨by decide, C5_reconstruct_line_grouping.2.2
    [(⟨some "low", some 30, 1, 1, 1⟩ : WordBox)] 50 (by decide)⟩

/-- Claim C6: for every word with non-empty trimmed text and every
integer threshold in `[0, 100]`, the word passes the confidence filter
iff its confidence is strictly greater than the threshold; a confidence
exactly equal to the threshold is excluded. -/
theorem C6_strict_confidence_filter (w : WordBox) (t : Int)
    (h0 : 0 ≤ t) (h100 : t ≤ 100) (hw : trimmedWord w ≠ "") :
    (kept t w = true ↔ (t : ℚ) < parsedConf w) ∧
    (parsedConf w = (t : ℚ) → kept t w = false) ∧
    ((t : ℚ) < parsedConf w → kept t w = true) := by
  have hbeq : (trimmedWord w == "") = false := by
    simpa using hw
  refine ⟨?_, ?_, ?_⟩
  · simp [kept, hbeq]
  · intro heq
    simp [kept, heq]
  · intro hlt
    simp [kept, hbeq, hlt]

/-- Closed witness for C6: threshold 50 excludes confidence exactly 50
and keeps confidence 50.5. -/
theorem C6_witness :
    kept 50 ⟨some "word", some 50, 1, 1, 1⟩ = false ∧
    kept 50 ⟨some "word", some (mkRat 101 2), 1, 1, 1⟩ = true :=
  ⟨(C6_strict_confidence_filter ⟨some "word", some 50, 1, 1, 1⟩ 50
      (by decide) (by decide) (by decide)).2.1 (by decide),
   (C6_strict_confidence_filter ⟨some "word", some (mkRat 101 2), 1, 1, 1⟩ 50
      (by decide) (by decide) (by decide)).2.2 (by decide)⟩

/-- Claim C7: for thresholds `t1 < t2` the words kept at `t2` form a
subsequence (hence a subset) of those kept at `t1`, the kept trimmed
words at `t2` form a subsequence of the kept trimmed words at `t1`, and
the full text content of the reconstruction (all output lines joined by
single spaces) is exactly the space-joined kept trimmed words — so no
text appears at `t2` that is absent at `t1`. -/
theorem C7_threshold_monotone (ws : List WordBox) (t1 t2 : Int) (h : t1 < t2) :
    List.Sublist (ws.filter (kept t2)) (ws.filter (kept t1)) ∧
    List.Sublist ((ws.filter (kept t2)).map trimmedWord)
      ((ws.filter (kept t1)).map trimmedWord) ∧
    (∀ t : Int, String.intercalate " " (extract_text_lines ws t) =
      String.intercalate " " ((ws.filter (kept t)).map trimmedWord)) :=
  ⟨kept_filter_mono ws h.le, (kept_filter_mono ws h.le).map trimmedWord,
    fun t => intercalate_extract ws t⟩

/-- Closed witness for C7 at thresholds 40 < 60 on a two-word list where
the second word is dropped at 60. -/
theorem C7_witness :
    List.Sublist
      (([⟨some "A", some 90, 1, 1, 1⟩,
          (⟨some "B", some 50, 1, 1, 2⟩ : WordBox)].filter (kept 60)).map trimmedWord)
      (([⟨some "A", some 90, 1, 1, 1⟩,
          (⟨some "B", some 50, 1, 1, 2⟩ : WordBox)].filter (kept 40)).map trimmedWord) ∧
    String.intercalate " " (extract_text_lines
      [⟨some "A", some 90, 1, 1, 1⟩, (⟨some "B", some 50, 1, 1, 2⟩ : WordBox)] 60) =
      String.intercalate " " (([⟨some "A", some 90, 1, 1, 1⟩,
        (⟨some "B", some 50, 1, 1, 2⟩ : WordBox)].filter (kept 60)).map trimmedWord) :=
  ⟨(C7_threshold_monotone
      [⟨some "A", some 90, 1, 1, 1⟩, ⟨some "B", some 50, 1, 1, 2⟩] 40 60 (by decide)).2.1,
   (C7_threshold_monotone
      [⟨some "A", some 90, 1, 1, 1⟩, ⟨some "B", some 50, 1, 1, 2⟩] 40 60 (by decide)).2.2 60⟩

/-- Claim C10: a word whose confidence entry fails to parse gets the
sentinel `-1` instead of raising, is never kept for any threshold in
`[0, 100]`, and contributes to no reconstructed line: dropping it from
the word list leaves the extraction unchanged. -/
theorem C10_unparsable_confidence_dropped (w : WordBox) (t : Int)
    (hc : w.conf = none) (h0 : 0 ≤ t) (h100 : t ≤ 100) :
    parsedConf w = -1 ∧ kept t w = false ∧
    (∀ ws1 ws2 : List WordBox,
      extract_text_lines (ws1 ++ w :: ws2) t = extract_text_lines (ws1 ++ ws2) t) := by
  have hpc : parsedConf w = -1 := by rw [parsedConf, hc]; rfl
  have hnk : kept t w = false := by
    have hq : ¬((t : ℚ) < parsedConf w) := by
      rw [hpc]
      have h0q : (0 : ℚ) ≤ (t : ℚ) := by exact_mod_cast h0
      intro hcon
      exact absurd (lt_of_le_of_lt h0q hcon) (by norm_num)
    simp [kept, hq]
  refine ⟨hpc, hnk, fun ws1 ws2 => ?_⟩
  rw [extract_text_lines, extract_text_lines, List.foldl_append, List.foldl_append,
    List.foldl_cons, show lineStep t (ws1.foldl (lineStep t) ⟨[], [], (-1, -1, -1)⟩) w
      = ws1.foldl (lineStep t) ⟨[], [], (-1, -1, -1)⟩ by simp [lineStep, hnk]]

/-- Closed witness for C10: a malformed confidence entry between two
valid words changes nothing. -/
theorem C10_witness :
    parsedConf ⟨some "junk", none, 1, 1, 1⟩ = -1 ∧
    kept 50 ⟨some "junk", none, 1, 1, 1⟩ = false ∧
    extract_text_lines
      [⟨some "A", some 90, 1, 1, 1⟩, ⟨some "junk", none, 1, 1, 1⟩,
        (⟨some "B", some 90, 1, 1, 1⟩ : WordBox)] 50 =
      extract_text_lines
        [⟨some "A", some 90, 1, 1, 1⟩, (⟨some "B", some 90, 1, 1, 1⟩ : WordBox)] 50 :=
  ⟨(C10_unparsable_confidence_dropped ⟨some "junk", none, 1, 1, 1⟩ 50 rfl
      (by decide) (by decide)).1,
   (C10_unparsable_confidence_dropped ⟨some "junk", none, 1, 1, 1⟩ 50 rfl
      (by decide) (by decide)).2.1,
   (C10_unparsable_confidence_dropped ⟨some "junk", none, 1, 1, 1⟩ 50 rfl
      (by decide) (by decide)).2.2
     [⟨some "A", some 90, 1, 1, 1⟩] [⟨some "B", some 90, 1, 1, 1⟩]⟩


/-- Claim C8: `export_text` produces, for each page 1-based, the marker
line `=== Page i ===`, the page's text of record and a blank-line
separator between page blocks, independent of edited status; for a
2-page document with texts `"A"` and `"B"` the result is exactly
`"=== Page 1 ===\nA\n\n=== Page 2 ===\nB\n"`. -/
theorem C8_export_format (texts : List String) :
    export_text (stateWithTexts texts) = exportSpec 1 texts ∧
    export_text (stateWithTexts ["A", "B"]) =
      "=== Page 1 ===\nA\n\n=== Page 2 ===\nB\n" :=
  ⟨export_stateWithTexts texts, by decide⟩

/-- Claim C9: a rendered page with either dimension above 4000 px is
downscaled so the longer dimension becomes exactly 4000 and the other is
the proportional value floored to an integer; `8000×6000` becomes
`4000×3000`; a page with both dimensions at most 4000 is unchanged. -/
theorem C9_oversized_page_downscale (w h : Nat) :
    ((4000 < w ∨ 4000 < h) →
      max (resize_page w h).1 (resize_page w h).2 = 4000 ∧
      min (resize_page w h).1 (resize_page w h).2 = (min w h) * 4000 / (max w h)) ∧
    (w ≤ 4000 ∧ h ≤ 4000 → resize_page w h = (w, h)) ∧
    resize_page 8000 6000 = (4000, 3000) := by
  refine ⟨?_, ?_, by decide⟩
  · intro hover
    by_cases hlt : h < w
    · have hw0 : 0 < w := by omega
      have hdle : h * 4000 / w ≤ 4000 := by
        calc h * 4000 / w ≤ w * 4000 / w :=
              Nat.div_le_div_right (Nat.mul_le_mul_right 4000 (by omega))
          _ = 4000 := Nat.mul_div_cancel_left 4000 hw0
      rw [resize_page, if_pos hover, if_pos hlt]
      constructor
      · exact Nat.max_eq_left hdle
      · rw [Nat.min_eq_right hdle, Nat.min_eq_right (by omega : h ≤ w),
          Nat.max_eq_left (by omega : h ≤ w)]
    · have hh0 : 0 < h := by omega
      have hdle : w * 4000 / h ≤ 4000 := by
        calc w * 4000 / h ≤ h * 4000 / h :=
              Nat.div_le_div_right (Nat.mul_le_mul_right 4000 (by omega))
          _ = 4000 := Nat.mul_div_cancel_left 4000 hh0
      rw [resize_page, if_pos hover, if_neg hlt]
      constructor
      · exact Nat.max_eq_right hdle
      · rw [Nat.min_eq_left hdle, Nat.min_eq_left (by omega : w ≤ h),
          Nat.max_eq_right (by omega : w ≤ h)]
  · rintro ⟨hw, hh⟩
    rw [resize_page, if_neg (by omega)]

/-- Closed witness for C9: the downscale branch at `8000×6000` and the
unchanged branch at `3000×2000`. -/
theorem C9_witness :
    max (resize_page 8000 6000).1 (resize_page 8000 6000).2 = 4000 ∧
    resize_page 3000 2000 = (3000, 2000) :=
  ⟨((C9_oversized_page_downscale 8000 6000).1 (by decide)).1,
   (C9_oversized_page_downscale 3000 2000).2.1 (by decide)⟩

/-- Closed witness for C8: the general format theorem applied to the
concrete 2-page document. -/
theorem C8_witness :
    export_text (stateWithTexts ["A", "B"]) = exportSpec 1 ["A", "B"] ∧
    exportSpec 1 ["A", "B"] = "=== Page 1 ===\nA\n\n=== Page 2 ===\nB\n" :=
  ⟨(C8_export_format ["A", "B"]).1, by decide⟩


/-- Claim C1 counterexample: in a 3-page run whose second page fails
recognition, all three pages report a terminal outcome, yet
`processing_complete` is emitted zero times — not exactly once — because
`on_page_completed` is connected only to `page_processed` and a failing
`OCRTask.run` emits only `error_occurred`. -/
theorem C1_counterexample :
    (runScheduler [.success "page 1 text" [], .failure "Pytesseract error on page 2",
        .success "page 3 text" []]).1.total_pages = 3 ∧
    (runScheduler [.success "page 1 text" [], .failure "Pytesseract error on page 2",
        .success "page 3 text" []]).1.completed_pages = 2 ∧
    (runScheduler [.success "page 1 text" [], .failure "Pytesseract error on page 2",
        .success "page 3 text" []]).2 = 0 ∧
    ¬(runScheduler [.success "page 1 text" [], .failure "Pytesseract error on page 2",
        .success "page 3 text" []]).2 = 1 :=
  ⟨rfl, rfl, rfl, by decide⟩

/-- Claim C1 (amended): `completedCount` counts only successful page
results — per-page recognition failures never increment it — so the
completion event fires exactly once iff the run is non-empty and every
page succeeds, and if any page fails recognition the completion event
never fires. -/
theorem C1_completion_requires_all_successes (outcomes : List PageOutcome) :
    (runScheduler outcomes).1.completed_pages = countSuccess outcomes ∧
    ((runScheduler outcomes).2 =
      if 0 < countSuccess outcomes ∧ countSuccess outcomes = outcomes.length
      then 1 else 0) ∧
    (outcomes ≠ [] → (∀ o ∈ outcomes, isSuccess o = true) →
      (runScheduler outcomes).2 = 1) ∧
    ((∃ o ∈ outcomes, isSuccess o = false) → (runScheduler outcomes).2 = 0) := by
  have hle : countSuccess outcomes ≤ outcomes.length := List.countP_le_length _
  have hrun := deliverOutcome_run outcomes outcomes.length 0 0 (by omega)
  rw [runScheduler, hrun]
  refine ⟨by simp, by simp, ?_, ?_⟩
  · intro hne hall
    have hcnt : countSuccess outcomes = outcomes.length :=
      List.countP_eq_length.mpr hall
    have hpos : 0 < countSuccess outcomes := by
      rw [hcnt]
      exact List.length_pos.mpr hne
    simp only [Nat.zero_add]
    rw [if_pos ⟨hpos, hcnt⟩]
  · rintro ⟨o, ho, hfo⟩
    have hne : ¬(0 < countSuccess outcomes ∧
        countSuccess outcomes = outcomes.length) := by
      rintro ⟨-, hcnt⟩
      have := List.countP_eq_length.mp hcnt o ho
      rw [hfo] at this
      exact Bool.false_ne_true this
    simp only [Nat.zero_add]
    rw [if_neg hne]

/-- Closed witness for the amended C1: an all-success run completes
exactly once; a run with a failure never emits completion. -/
theorem C1_witness :
    (runScheduler [.success "a" [], .success "b" []]).2 = 1 ∧
    (runScheduler [.success "a" [], .failure "boom"]).2 = 0 :=
  ⟨(C1_completion_requires_all_successes
      [.success "a" [], .success "b" []]).2.2.1 (by decide) (by decide),
   (C1_completion_requires_all_successes
      [.success "a" [], .failure "boom"]).2.2.2 ⟨.failure "boom", by decide, rfl⟩⟩


/-- Claim C3 (amended): `on_confidence_changed` stores the new threshold
and immediately recomputes the reconstruction — but only for the
currently displayed page (when its raw data is cached and it is not
edited); every other page's cached text and all raw data are left
untouched, and the recognition engine is not re-invoked. -/
theorem update_highlights_spec (s : AppState) (data : List WordBox)
    (hrange : s.current_page_index < s.temp_pages)
    (hdata : s.ocr_data_cache s.current_page_index = some data)
    (hmod : modifiedAt s s.current_page_index = false) :
    update_current_page_highlights s =
      { s with
        editor_text :=
          String.intercalate "\n" (extract_text_lines data s.confidence_threshold),
        text_cache := upd s.text_cache s.current_page_index
          (String.intercalate "\n" (extract_text_lines data s.confidence_threshold)) } := by
  rw [update_current_page_highlights,
    if_neg (show ¬(s.temp_pages = 0 ∨ s.temp_pages ≤ s.current_page_index) by omega),
    if_neg (show ¬(modifiedAt s s.current_page_index = true) by simp [hmod]),
    hdata]

theorem C3_threshold_recomputes_current_page_only (s : AppState) (v : Int)
    (data : List WordBox)
    (hrange : s.current_page_index < s.temp_pages)
    (hdata : s.ocr_data_cache s.current_page_index = some data)
    (hmod : modifiedAt s s.current_page_index = false) :
    (on_confidence_changed s v).confidence_threshold = v ∧
    (on_confidence_changed s v).editor_text =
      String.intercalate "\n" (extract_text_lines data v) ∧
    (on_confidence_changed s v).text_cache s.current_page_index =
      some (String.intercalate "\n" (extract_text_lines data v)) ∧
    (∀ j, j ≠ s.current_page_index →
      (on_confidence_changed s v).text_cache j = s.text_cache j) ∧
    (∀ j, (on_confidence_changed s v).ocr_data_cache j = s.ocr_data_cache j) := by
  have hupd := update_highlights_spec { s with confidence_threshold := v } data
    hrange hdata hmod
  have hocc : on_confidence_changed s v =
      update_current_page_highlights { s with confidence_threshold := v } := by
    rw [on_confidence_changed]
    show (if (s.ocr_data_cache s.current_page_index).isSome = true then
        update_current_page_highlights { s with confidence_threshold := v }
      else { s with confidence_threshold := v }) = _
    rw [if_pos (show (s.ocr_data_cache s.current_page_index).isSome = true by
      rw [hdata]; rfl)]
  rw [hocc, hupd]
  refine ⟨rfl, rfl, by simp [upd], fun j hj => by simp [upd, hj], fun j => rfl⟩

/-- Closed witness for the amended C3: a freshly recognised one-of-two
page document, threshold raised to 95. -/
theorem C3_witness :
    (on_confidence_changed
      (on_page_processed (loadedState 2 0) 0 "A" [⟨some "A", some 90, 1, 1, 1⟩])
      95).confidence_threshold = 95 ∧
    (on_confidence_changed
      (on_page_processed (loadedState 2 0) 0 "A" [⟨some "A", some 90, 1, 1, 1⟩])
      95).editor_text =
      String.intercalate "\n" (extract_text_lines [⟨some "A", some 90, 1, 1, 1⟩] 95) :=
  ⟨(C3_threshold_recomputes_current_page_only
      (on_page_processed (loadedState 2 0) 0 "A" [⟨some "A", some 90, 1, 1, 1⟩]) 95
      [⟨some "A", some 90, 1, 1, 1⟩] (by decide) rfl rfl).1,
   (C3_threshold_recomputes_current_page_only
      (on_page_processed (loadedState 2 0) 0 "A" [⟨some "A", some 90, 1, 1, 1⟩]) 95
      [⟨some "A", some 90, 1, 1, 1⟩] (by decide) rfl rfl).2.1⟩

/-- Claim C3 counterexample: in a 2-page document with both pages
recognised, unedited, and page 0 on display, raising the threshold to 95
leaves page 1's cached text at the old reconstruction `"B"`, although
page 1 has raw words present, is unedited, and its reconstruction under
the new threshold is `""` — so not every qualifying page is recomputed. -/
theorem C3_counterexample :
    modifiedAt (on_page_processed (on_page_processed (loadedState 2 0) 0 "A"
      [⟨some "A", some 90, 1, 1, 1⟩]) 1 "B" [⟨some "B", some 90, 1, 1, 1⟩]) 1 = false ∧
    (on_page_processed (on_page_processed (loadedState 2 0) 0 "A"
      [⟨some "A", some 90, 1, 1, 1⟩]) 1 "B"
      [⟨some "B", some 90, 1, 1, 1⟩]).ocr_data_cache 1 =
      some [⟨some "B", some 90, 1, 1, 1⟩] ∧
    (on_confidence_changed (on_page_processed (on_page_processed (loadedState 2 0) 0 "A"
      [⟨some "A", some 90, 1, 1, 1⟩]) 1 "B"
      [⟨some "B", some 90, 1, 1, 1⟩]) 95).text_cache 1 = some "B" ∧
    String.intercalate "\n" (extract_text_lines [⟨some "B", some 90, 1, 1, 1⟩] 95) = "" ∧
    ("B" : String) ≠ "" :=
  ⟨rfl, rfl, rfl, rfl, by decide⟩

/-- Claim C4 (amended): `reset_current_text` clears the edited flag and
restores the text of record to the cached text — the reconstruction
under the threshold in force when the page's text was last computed
while unedited — not the reconstruction under the current threshold:
after recognition at threshold `t0`, an edit, and a threshold change to
`t`, resetting yields the reconstruction at `t0`. -/
theorem C4_reset_restores_cached_reconstruction (ws : List WordBox) (t0 t : Int) :
    textOf (reset_current_text (on_confidence_changed (edit_text
      (on_page_processed (loadedState 1 t0) 0
        (String.intercalate "\n" (extract_text_lines ws t0)) ws) "custom") t)) 0 =
      some (String.intercalate "\n" (extract_text_lines ws t0)) ∧
    modifiedAt (reset_current_text (on_confidence_changed (edit_text
      (on_page_processed (loadedState 1 t0) 0
        (String.intercalate "\n" (extract_text_lines ws t0)) ws) "custom") t)) 0 =
      false := ⟨rfl, rfl⟩

/-- Claim C4 counterexample: recognition of the word `"B"` (confidence
90) at threshold 0 caches `"B"`; after editing and raising the threshold
to 95, `reset_current_text` restores `"B"`, while the reconstruction of
the page's words under the current threshold 95 is `""` — so reset does
not restore the current-threshold reconstruction. -/
theorem C4_counterexample :
    textOf (reset_current_text (on_confidence_changed (edit_text
      (on_page_processed (loadedState 1 0) 0 "B"
        [⟨some "B", some 90, 1, 1, 1⟩]) "custom") 95)) 0 = some "B" ∧
    String.intercalate "\n"
      (extract_text_lines [(⟨some "B", some 90, 1, 1, 1⟩ : WordBox)] 95) = "" ∧
    ("B" : String) ≠ "" :=
  ⟨rfl, rfl, by decide⟩

/-- Claim C2: the first half of the claim holds — after recognition,
editing page 0 to `"custom"` and then changing the threshold leaves the
text of record at `"custom"` (`update_current_page_highlights` skips
edited pages).  The second half is violated by the code: with page 0
edited (flag set), a scheduler result arriving for page 0 unconditionally
replaces the cached text and the display in `on_page_processed`, which
has no edited-flag guard, so the user's `"custom"` is overwritten by the
arriving OCR text. -/
theorem C2_edit_preserved_by_threshold_not_by_result :
    textOf (on_confidence_changed (edit_text
      (on_page_processed (loadedState 1 0) 0 "H"
        [⟨some "H", some 90, 1, 1, 1⟩]) "custom") 10) 0 = some "custom" ∧
    modifiedAt (edit_text (loadedState 1 0) "custom") 0 = true ∧
    textOf (on_page_processed (edit_text (loadedState 1 0) "custom") 0 "H"
      [⟨some "H", some 90, 1, 1, 1⟩]) 0 = some "H" ∧
    modifiedAt (on_page_processed (edit_text (loadedState 1 0) "custom") 0 "H"
      [⟨some "H", some 90, 1, 1, 1⟩]) 0 = true ∧
    ("H" : String) ≠ "custom" :=
  ⟨rfl, rfl, rfl, rfl, by decide⟩

end TamilOCR
